import Mathlib

/-!
Verification of the InvisibleResearch creator-cleaning pipeline.

The development shallowly embeds three subsystems of the repository:
* `scripts/04_processing/LLM_name_detect.py` — text normalisation
  (`strip_html`, `rough_clean`), the simple/complex routing classifier
  (`is_simple` with `AFFIL_PAT`), and the order-preserving batching main
  loop;
* `scripts/05_validation/llm_validator.py` — the author-separation and
  name-formatting sub-scorers;
* `scripts/05_validation/utils/data_protection.py` — the crash-safe
  progress store (`safe_save`, `create_backup`, backup rotation).

Python strings are modelled as `List Char`; machine-level details that the
claims do not touch (full Unicode tables, the float representation of
averages) are modelled exactly where they matter and documented where a
faithful ASCII fragment suffices.
-/

namespace InvisibleResearch

/-! ## Character-level helpers

`pyIsSpace` models Python's `\s` / `str.strip` character class on the
ASCII fragment (space, tab, newline, carriage return, vertical tab,
form feed).  `isWordChar` models `\w` on the ASCII fragment
(letters, digits, underscore). -/

def pyIsSpace (c : Char) : Bool :=
  c = ' ' || c = '\t' || c = '\n' || c = '\x0d' || c = '\x0b' || c = '\x0c'

def isWordChar (c : Char) : Bool :=
  ('a' ≤ c && c ≤ 'z') || ('A' ≤ c && c ≤ 'Z') || ('0' ≤ c && c ≤ '9') || c = '_'

/-- Model of `unicodedata.normalize("NFKC", ·)` as a character map.
The table is complete for every Unicode character whose NFKC normal
form contains `<`, `>` or `&` — an enumeration of all code points finds
exactly six, each mapping to that single ASCII character: U+FE64/U+FF1C
(small/fullwidth less-than), U+FE65/U+FF1E (greater-than) and
U+FE60/U+FF06 (ampersand).  No character maps to a longer string
containing one of these.  Beyond those, the ideographic space is the
one other compatibility mapping this development touches; every other
character is left unchanged. -/
def nfkcChar (c : Char) : Char :=
  if c = '＜' then '<'
  else if c = '﹤' then '<'
  else if c = '＞' then '>'
  else if c = '﹥' then '>'
  else if c = '＆' then '&'
  else if c = '﹠' then '&'
  else if c = '　' then ' '
  else c

/-! ## `strip_html`

Model of `BeautifulSoup(text, "lxml").get_text(" ", strip=True)`: a
tag `<...>` closed by a `>` is replaced by a single space (the pipeline
collapses whitespace afterwards, so emitting one space per tag matches
the library's join-with-separator behaviour); a `<` never followed by a
closing `>` is kept as literal text.  The scanner buffers the
characters seen since the last unmatched `<` (in reverse) so the
recursion is structural on the input.  After tag removal the text
fragments have their HTML entities decoded, as `get_text` does;
`decodeEntities` models the XML named entities `&amp;` `&lt;` `&gt;`
`&quot;` — every entity begins with `&`, so statements whose hypotheses
exclude `&` from the text are insensitive to the remaining (numeric and
exotic named) forms, whose undecoded text keeps its `&`. -/

def stripScan (pending : Option (List Char)) : List Char → List Char
  | [] =>
    match pending with
    | none => []
    | some buf => buf.reverse
  | c :: rest =>
    match pending with
    | none =>
      if c = '<' then stripScan (some ['<']) rest
      else c :: stripScan none rest
    | some buf =>
      if c = '>' then ' ' :: stripScan none rest
      else stripScan (some (c :: buf)) rest

/-- Generic initial-segment test, also used by the regex scans below:
`headMatch pat l` holds when `pat` is an initial segment of `l`. -/
def headMatch : List Char → List Char → Bool
  | [], _ => true
  | _ :: _, [] => false
  | p :: ps, c :: cs => p = c && headMatch ps cs

/-- Value of a completed entity name (the buffer between `&` and `;`). -/
def entVal : List Char → Option Char
  | ['a', 'm', 'p'] => some '&'
  | ['l', 't'] => some '<'
  | ['g', 't'] => some '>'
  | ['q', 'u', 'o', 't'] => some '"'
  | _ => none

/-- Whether a buffer is still a prefix of one of the modelled entity
names, so the scanner keeps extending it. -/
def entPrefixOk (buf : List Char) : Bool :=
  ["amp", "lt", "gt", "quot"].any (fun n => headMatch buf n.toList)

/-- Entity-decoding scanner: outside an entity (`pending = none`)
characters pass through and `&` opens a candidate; inside, the buffer
(stored reversed, without the `&`) grows while it prefixes a modelled
name, a `;` completes it, and any mismatch flushes the raw characters
back out. -/
def decScan (pending : Option (List Char)) : List Char → List Char
  | [] =>
    match pending with
    | none => []
    | some buf => '&' :: buf.reverse
  | c :: rest =>
    match pending with
    | none =>
      if c = '&' then decScan (some []) rest
      else c :: decScan none rest
    | some buf =>
      if c = ';' then
        match entVal buf.reverse with
        | some d => d :: decScan none rest
        | none => '&' :: buf.reverse ++ ';' :: decScan none rest
      else if c = '&' then '&' :: buf.reverse ++ decScan (some []) rest
      else if entPrefixOk (buf.reverse ++ [c]) then decScan (some (c :: buf)) rest
      else '&' :: buf.reverse ++ c :: decScan none rest

def decodeEntities (l : List Char) : List Char := decScan none l

def strip_html (l : List Char) : List Char := decodeEntities (stripScan none l)

/-! ## Whitespace collapsing and trimming (`WS_RE.sub(" ", ·)` and `str.strip`) -/

def collapseWS : List Char → List Char
  | [] => []
  | [c] => [if pyIsSpace c then ' ' else c]
  | c :: d :: rest =>
    if pyIsSpace c && pyIsSpace d then collapseWS (d :: rest)
    else (if pyIsSpace c then ' ' else c) :: collapseWS (d :: rest)

def trimChars (l : List Char) : List Char :=
  ((l.dropWhile pyIsSpace).reverse.dropWhile pyIsSpace).reverse

/-- Source `rough_clean`: HTML → plain text, Unicode NFKC, compress whitespace,
strip the ends (`LLM_name_detect.py`, lines 137–142). -/
def rough_clean (txt : List Char) : List Char :=
  trimChars (collapseWS ((strip_html txt).map nfkcChar))

/-! ## Routing classifier (`is_simple`, `AFFIL_PAT`)

Regular-expression search is modelled by a positional scan over the
character list, built on `headMatch`. -/

/-- Substring search (`re.search` with a literal pattern). -/
def hasSub (pat : List Char) : List Char → Bool
  | [] => headMatch pat []
  | c :: rest => headMatch pat (c :: rest) || hasSub pat rest

/-- The alternatives of `AFFIL_PAT`
(`LLM_name_detect.py`, lines 115–118), all lowercase because the regex
is compiled with `re.I` and the scan runs on the lowercased text. -/
def affilKeywords : List (List Char) :=
  ["universit", "faculty", "department", "institute", "hospital", "school",
   "center", "college", "email", "@", "www.", "http", "orcid", "tel",
   "phone", "doi:"].map String.toList

/-- The `\b` in `AFFIL_PAT` requires a word boundary before the keyword:
when a previous character exists, it and the keyword's first character
must not both be word characters. -/
def boundaryOk (prev : Option Char) (kw : List Char) : Bool :=
  match prev, kw with
  | none, _ => true
  | some _, [] => true
  | some p, k :: _ => !(isWordChar p && isWordChar k)

def affilScan (prev : Option Char) : List Char → Bool
  | [] => false
  | c :: rest =>
    affilKeywords.any (fun kw => boundaryOk prev kw && headMatch kw (c :: rest))
      || affilScan (some c) rest

/-- Search `AFFIL_PAT.search(txt)` as a Boolean: scan the lowercased text for a
keyword occurrence whose start respects the `\b` word boundary.
`Char.toLower` is the ASCII model of case folding under `re.I`. -/
def affilSearch (txt : List Char) : Bool :=
  affilScan none (txt.map Char.toLower)

/-- Search `re.search(r"[;&/\\]| and ", txt, re.I)`: one of the four delimiter
characters anywhere, or the literal `" and "` case-insensitively. -/
def delimSearch (txt : List Char) : Bool :=
  txt.any (fun c => c = ';' || c = '&' || c = '/' || c = '\\')
    || hasSub " and ".toList (txt.map Char.toLower)

/-- The capital-letter class of the comma-group pattern in `is_simple`,
exactly the characters written in the source between `A-Z` and `]`
(the source file stores them in a mojibake form; they are reproduced
verbatim). -/
def commaCapClass : List Char :=
  "√ÅÄÑÇÖÜƒåáâàäãçéèëìíîñò≈ö†ôõúùΩ".toList

def isCommaCap (c : Char) : Bool :=
  ('A' ≤ c && c ≤ 'Z') || commaCapClass.contains c

/-- After a comma, `[ ]*` skips literal spaces; the first non-space
character must then lie in the capital class for the comma to open a
"comma group". -/
def capAfterSpaces : List Char → Bool
  | [] => false
  | c :: rest => if c = ' ' then capAfterSpaces rest else isCommaCap c

/-- Count `len(re.findall(r",[ ]*[A-Z…]", txt))`: commas never occur inside a
match, so the non-overlapping count equals the number of commas that
open a group. -/
def commaGroups : List Char → Nat
  | [] => 0
  | c :: rest =>
    (if c = ',' && capAfterSpaces rest then 1 else 0) + commaGroups rest

/-- Source `is_simple` (`LLM_name_detect.py`, lines 192–199): no affiliation
keyword, no explicit delimiter, and at most one comma group. -/
def is_simple (txt : List Char) : Bool :=
  if affilSearch txt then false
  else if delimSearch txt then false
  else commaGroups txt ≤ 1

/-! ## Main pipeline (`main` in `LLM_name_detect.py`, lines 264–310)

The external extractor (`call_llm` after its retry decorator) is an
oracle parameter `llm : List Char → Option LLMResult`; `none` models
the exhausted-retries exception caught inside `process_batch`. -/

structure LLMResult where
  authors_original : List (List Char)
  affiliations : List (List Char)

/-- Model of `"; ".join(author.strip() for author in authors if author.strip())`. -/
def joinAuthors (authors : List (List Char)) : List Char :=
  List.intercalate "; ".toList ((authors.map trimChars).filter (fun a => a ≠ []))

/-- The per-record outcome of one `process_batch` entry: the pair written
into `authors_clean[idx]` and `affil_out[idx]`. -/
def llmResolve (llm : List Char → Option LLMResult) (txt : List Char) :
    List Char × List (List Char) :=
  match llm txt with
  | some res => (joinAuthors res.authors_original, res.affiliations)
  | none => ([], [])

/-- What the loop body produces for one raw record: empty rows and
`simple` rows resolve locally, `complex` rows through the oracle. -/
def perRecord (llm : List Char → Option LLMResult) (raw : List Char) :
    List Char × List (List Char) :=
  let clean := rough_clean raw
  if clean = [] then ([], [])
  else if is_simple clean then (trimChars clean, [])
  else llmResolve llm clean

/-- Source `process_batch`: each batched `(clean_txt, idx)` pair is resolved and
written back at its original index.  `affils` entries are `Option`s to
mirror the `[None] * n` initialisation of `affil_out`. -/
def processBatch (llm : List Char → Option LLMResult)
    (batch : List (List Char × Nat))
    (st : List (List Char) × List (Option (List (List Char)))) :
    List (List Char) × List (Option (List (List Char))) :=
  batch.foldl
    (fun st p =>
      let r := llmResolve llm p.1
      (st.1.set p.2 r.1, st.2.set p.2 (some r.2)))
    st

/-- The row loop of `main`: resolve empty and simple rows in place,
accumulate complex rows into `batch`, flush a full batch through
`process_batch`, and flush the remainder at the end. -/
def runLoop (llm : List Char → Option LLMResult) (B : Nat) :
    List (List Char) → Nat → List (List Char) × List (Option (List (List Char))) →
      List (List Char × Nat) → List (List Char) × List (Option (List (List Char)))
  | [], _, st, batch => processBatch llm batch st
  | raw :: rest, idx, st, batch =>
    let clean := rough_clean raw
    if clean = [] then
      runLoop llm B rest (idx + 1) (st.1.set idx [], st.2.set idx (some [])) batch
    else if is_simple clean then
      runLoop llm B rest (idx + 1)
        (st.1.set idx (trimChars clean), st.2.set idx (some [])) batch
    else
      let batch' := batch ++ [(clean, idx)]
      if B ≤ batch'.length then
        runLoop llm B rest (idx + 1) (processBatch llm batch' st) []
      else
        runLoop llm B rest (idx + 1) st batch'

/-- Source `main` restricted to its data flow: initialise `authors_clean` with
empty strings and `affil_out` with `None`s, run the loop, and replace any
remaining `None` by `[]` (the final safety pass of the source). -/
def mainPipeline (llm : List Char → Option LLMResult) (B : Nat)
    (records : List (List Char)) : List (List Char) × List (List (List Char)) :=
  let n := records.length
  let st := runLoop llm B records 0
    (List.replicate n [], List.replicate n (none : Option (List (List Char)))) []
  (st.1, st.2.map (fun o => o.getD []))

/-! ## Validator sub-scorers (`llm_validator.py`)

The scorers work on the same `List Char` model of Python strings;
`trimChars` models `str.strip()` and `splitOnChar` models `str.split`
with a one-character separator.  A `ValidationRecord` carries only the
fields the two modelled analyzers read. -/

structure ValidationRecord where
  record_id : List Char
  original_creator : List Char
  processed_authors : List Char
  processed_affiliations : List (List Char)
  author_count : Int

/-- Python `s.split(sep)` for a single-character separator:
`"".split(';') == ['']` and empty segments are kept. -/
def splitOnChar (sep : Char) : List Char → List (List Char)
  | [] => [[]]
  | c :: rest =>
    match splitOnChar sep rest with
    | [] => if c = sep then [[], []] else [[c]]
    | cur :: groups =>
      if c = sep then [] :: cur :: groups else (c :: cur) :: groups

/-- Model of `[name.strip() for name in processed.split(';') if name.strip()]`. -/
def splitAuthors (processed : List Char) : List (List Char) :=
  ((splitOnChar ';' processed).map trimChars).filter (fun n => n ≠ [])

/-- Model of `any(actual_authors.count(name) > 1 for name in actual_authors)` —
the duplicate detection of `analyze_author_separation`. -/
def hasDuplicate (l : List (List Char)) : Bool :=
  l.any (fun n => 1 < l.count n)

/-- Source `analyze_author_separation` (`llm_validator.py`, lines 94–151),
score component only (the explanatory note string is omitted).  The
float comparison `sum/len < 5` is expressed over naturals as
`sum < 5 * len`, exact because both sides are integers; the
empty-list branch keeps the source's `avg_length = 0`. -/
def analyze_author_separation (record : ValidationRecord) : Nat :=
  let processed := record.processed_authors
  if record.author_count ≤ 1 then
    if processed.contains ';' then 2 else 5
  else
    let actual := splitAuthors processed
    let acount : Int := actual.length
    let score :=
      if acount = record.author_count then 5
      else if (acount - record.author_count).natAbs = 1 then 4
      else if (acount - record.author_count).natAbs ≤ 2 then 3
      else 2
    let score := if hasDuplicate actual then max 1 (score - 1) else score
    let lens := actual.map List.length
    if lens.length = 0 ∨ lens.sum < 5 * lens.length then max 1 (score - 1)
    else if 50 * lens.length < lens.sum then max 1 (score - 1)
    else score

/-! Name-formatting analyzer.  Per-name scores move in half-point steps,
so they are computed in `ℚ`; `pyRound` is Python 3 `round` (round half
to even). -/

def pyRound (q : ℚ) : Int :=
  let f := ⌊q⌋
  let r := q - f
  if r < 1/2 then f
  else if 1/2 < r then f + 1
  else if Even f then f else f + 1

/-- Python `str.isupper` on the ASCII fragment: at least one cased
character and no lowercase one. -/
def pyIsUpper (s : List Char) : Bool :=
  s.any (fun c => c.isAlpha) && !(s.any (fun c => c.isLower))

/-- Python `str.islower` on the ASCII fragment. -/
def pyIsLower (s : List Char) : Bool :=
  s.any (fun c => c.isAlpha) && !(s.any (fun c => c.isUpper))

/-- Python `str.istitle` on the ASCII fragment: cased runs start with an
uppercase letter and continue in lowercase, and at least one cased
character occurs.  The fold carries (pattern-holds, seen-a-cased-char,
previous-char-was-cased). -/
def pyIsTitle (s : List Char) : Bool :=
  let step := fun (acc : Bool × Bool × Bool) (c : Char) =>
    let ok := acc.1
    let seen := acc.2.1
    let prevCased := acc.2.2
    if c.isUpper then (ok && !prevCased, true, true)
    else if c.isLower then (ok && prevCased, true, true)
    else (ok, seen, false)
  let r := s.foldl step (true, false, false)
  r.1 && r.2.1

/-- Model of `re.search(r'[^\w\s,.-]', name)`. -/
def hasSpecialChar (s : List Char) : Bool :=
  s.any (fun c =>
    !(isWordChar c || pyIsSpace c || c = ',' || c = '.' || c = '-'))

/-- Model of `re.search(r'\s{2,}', name)`. -/
def hasDoubleSpace (s : List Char) : Bool :=
  hasSub [' ', ' '] (s.map (fun c => if pyIsSpace c then ' ' else c))

/-- The per-name score of `analyze_name_formatting`: start at 3, adjust
for comma structure, case and characters, clamp to `[1, 5]`. -/
def formatNameScore (name : List Char) : ℚ :=
  let score : ℚ := 3
  let score :=
    if name.contains ',' then
      let parts := splitOnChar ',' name
      if parts.length = 2 then
        if trimChars (parts.getD 0 []) ≠ [] ∧ trimChars (parts.getD 1 []) ≠ [] then
          score + 1
        else score - 1
      else score - 1
    else score
  let score :=
    if pyIsUpper name then score - 1
    else if pyIsLower name then score - 1
    else if pyIsTitle name || name.any (fun c => c.isUpper) then
      score + 1/2
    else score
  let score := if hasSpecialChar name then score - 1/2 else score
  let score := if hasDoubleSpace name then score - 1/2 else score
  max 1 (min 5 score)

/-- Source `analyze_name_formatting` (`llm_validator.py`, lines 199–263), score
component only.  The result is `none` exactly where the source raises:
`sum(format_scores) / len(format_scores)` divides by zero whenever the
processed string is non-blank but splits to zero non-empty names. -/
def analyze_name_formatting (record : ValidationRecord) : Option Int :=
  let processed := record.processed_authors
  if trimChars processed = [] then some 1
  else
    let authors := splitAuthors processed
    match authors with
    | [] => none
    | _ =>
      let scores := authors.map formatNameScore
      some (pyRound (scores.sum / scores.length))

/-! ## Progress store (`utils/data_protection.py`)

The file system visible to `DataProtectionManager` is the live progress
file, the `.tmp` sibling, and the backups directory.  File contents are
modelled as parsed JSON values (`json.dump` of a value followed by
`json.load` yields the value back, so serialisation is the identity in
the model).  Backup files are `(mtime, content)` pairs; distinct backup
mtimes correspond to the second-resolution timestamps in backup file
names. -/

inductive PyVal where
  | str : String → PyVal
  | num : Int → PyVal
  | dict : List (String × PyVal) → PyVal
  | arr : List PyVal → PyVal
  | null

/-- Source `_verify_file_integrity`: the parsed document must be a dict and
every value a dict that contains a `record_id` key
(`data_protection.py`, lines ~218–247). -/
def verify_file_integrity : PyVal → Bool
  | .dict entries =>
    entries.all fun kv =>
      match kv.2 with
      | .dict fields => fields.any (fun f => f.1 = "record_id")
      | _ => false
  | _ => false

structure StoreState where
  live : Option PyVal
  temp : Option PyVal
  backups : List (Nat × PyVal)

/-- Sorting key of `_cleanup_old_backups`: modification time,
`reverse=True`. -/
def mtimeGE (a b : Nat × PyVal) : Prop := b.1 ≤ a.1

instance : DecidableRel mtimeGE := fun a b => inferInstanceAs (Decidable (b.1 ≤ a.1))

/-- Source `_cleanup_old_backups` (`data_protection.py`, lines 259–274): sort
all backup entries by modification time descending and keep the newest
`max_backups`. -/
def cleanup_old_backups (maxBackups : Nat) (bs : List (Nat × PyVal)) :
    List (Nat × PyVal) :=
  (bs.insertionSort mtimeGE).take maxBackups

/-- Source `create_backup` (`data_protection.py`, lines 43–77): nothing happens
when the live file is absent; otherwise the live content is copied to a
backup named by the reason tag and a second-resolution timestamp, then
old backups are pruned.  The stamp `t` models that timestamp: because
the filename embeds only whole seconds, a backup created at an already
used stamp lands on the same path and `shutil.copy2` overwrites that
file instead of adding one — hence the filter removing any existing
entry with the same stamp.  `t` also stands for the backup's resulting
modification time, which across the save flow (the live file is
rewritten between backups) grows with the filename stamp. -/
def create_backup (maxBackups : Nat) (t : Nat) (st : StoreState) :
    Option Nat × StoreState :=
  match st.live with
  | none => (none, st)
  | some v =>
    let bs := (t, v) :: st.backups.filter (fun p => p.1 ≠ t)
    (some t, { st with backups := cleanup_old_backups maxBackups bs })

/-- Fallible steps of `safe_save`: `ok` is the exception-free run;
`writeRaises` models an exception raised while writing the temporary
file (between steps 2 and 4 of the save protocol), handled by the
`except` branch that unlinks the `.tmp` file. -/
inductive SaveFault where
  | ok
  | writeRaises

/-- Source `safe_save` (`data_protection.py`, lines 79–117): pre-save backup,
write to `.tmp`, verify, and atomically rename over the live file only
when verification passes. -/
def safe_save (maxBackups : Nat) (t : Nat) (st : StoreState) (data : PyVal)
    (fault : SaveFault) : Bool × StoreState :=
  let st1 := (create_backup maxBackups t st).2
  match fault with
  | .writeRaises => (false, { st1 with temp := none })
  | .ok =>
    let st2 := { st1 with temp := some data }
    if verify_file_integrity data then
      (true, { st2 with live := some data, temp := none })
    else
      (false, { st2 with temp := none })

/-- Runs `k` successive backup-triggering calls stamped `0, 1, …, k-1`. -/
def iterBackups (maxBackups k : Nat) (st : StoreState) : StoreState :=
  (List.range k).foldl (fun s t => (create_backup maxBackups t s).2) st

/-! ## Canonical form of normalised text

`rough_clean` output is in *canonical form*: every whitespace character
is a literal space, no two adjacent characters are both whitespace, and
the ends carry no whitespace.  Both passes of the idempotence analysis
rest on these facts. -/

def spacesCanon (l : List Char) : Prop := ∀ c ∈ l, pyIsSpace c → c = ' '

def noDoubleSpace (l : List Char) : Prop :=
  List.Chain' (fun a b => pyIsSpace a = false ∨ pyIsSpace b = false) l

theorem collapse_spacesCanon : ∀ l : List Char, spacesCanon (collapseWS l)
  | [] => by simp [collapseWS, spacesCanon]
  | [d] => by
    intro c hc hs
    simp only [collapseWS, List.mem_singleton] at hc
    subst hc
    by_cases h : pyIsSpace d
    · simp [h]
    · simp only [h, if_false] at hs ⊢
      exact absurd hs (by simp [h])
  | d :: e :: rest => by
    intro c hc hs
    simp only [collapseWS] at hc
    by_cases h : pyIsSpace d && pyIsSpace e
    · rw [if_pos h] at hc
      exact collapse_spacesCanon (e :: rest) c hc hs
    · rw [if_neg h] at hc
      rcases List.mem_cons.mp hc with h1 | h1
      · subst h1
        by_cases hd : pyIsSpace d
        · simp [hd]
        · simp only [hd, if_false] at hs ⊢
          exact absurd hs (by simp [hd])
      · exact collapse_spacesCanon (e :: rest) c h1 hs

theorem collapse_head : ∀ (c : Char) (rest : List Char),
    ∃ t, collapseWS (c :: rest) = (if pyIsSpace c then ' ' else c) :: t
  | c, [] => ⟨[], rfl⟩
  | c, d :: rest => by
    by_cases h : pyIsSpace c && pyIsSpace d
    · obtain ⟨t, ht⟩ := collapse_head d rest
      refine ⟨t, ?_⟩
      rw [collapseWS, if_pos h, ht]
      have hc : pyIsSpace c := by
        rcases Bool.and_eq_true_iff.mp h with ⟨h1, _⟩
        exact h1
      have hd : pyIsSpace d := by
        rcases Bool.and_eq_true_iff.mp h with ⟨_, h2⟩
        exact h2
      simp [hc, hd]
    · exact ⟨collapseWS (d :: rest), by rw [collapseWS, if_neg h]⟩

theorem collapse_noDouble : ∀ l : List Char, noDoubleSpace (collapseWS l)
  | [] => by simp [collapseWS, noDoubleSpace]
  | [d] => by simp [collapseWS, noDoubleSpace]
  | d :: e :: rest => by
    have ih := collapse_noDouble (e :: rest)
    rw [noDoubleSpace, collapseWS]
    by_cases h : pyIsSpace d && pyIsSpace e
    · rw [if_pos h]
      exact ih
    · rw [if_neg h]
      refine List.chain'_cons'.mpr ⟨?_, ih⟩
      intro y hy
      obtain ⟨t, ht⟩ := collapse_head e rest
      rw [ht] at hy
      simp only [List.head?_cons, Option.mem_def, Option.some.injEq] at hy
      subst hy
      by_cases hd : pyIsSpace d
      · have he : pyIsSpace e = false := by
          cases he : pyIsSpace e
          · rfl
          · exact absurd (by simp [hd, he]) h
        right
        simp [he]
      · left
        simp [hd]

theorem collapse_of_canon : ∀ l : List Char,
    spacesCanon l → noDoubleSpace l → collapseWS l = l
  | [] => fun _ _ => rfl
  | [d] => by
    intro hs _
    by_cases h : pyIsSpace d
    · have : d = ' ' := hs d (by simp) h
      simp [collapseWS, h, this]
    · simp [collapseWS, h]
  | d :: e :: rest => by
    intro hs hnd
    have hR := List.chain'_cons.mp hnd
    have hnotboth : (pyIsSpace d && pyIsSpace e) = false := by
      rcases hR.1 with h1 | h1 <;> simp [h1]
    rw [collapseWS, if_neg (by simp [hnotboth])]
    have htail : collapseWS (e :: rest) = e :: rest :=
      collapse_of_canon (e :: rest)
        (fun c hc => hs c (List.mem_cons_of_mem d hc)) hR.2
    rw [htail]
    by_cases h : pyIsSpace d
    · have : d = ' ' := hs d (by simp) h
      simp [h, this]
    · simp [h]

theorem collapse_mem : ∀ l : List Char, ∀ c ∈ collapseWS l, c = ' ' ∨ c ∈ l
  | [] => by simp [collapseWS]
  | [d] => by
    intro c hc
    simp only [collapseWS, List.mem_singleton] at hc
    subst hc
    by_cases h : pyIsSpace d <;> simp [h]
  | d :: e :: rest => by
    intro c hc
    rw [collapseWS] at hc
    by_cases h : pyIsSpace d && pyIsSpace e
    · rw [if_pos h] at hc
      rcases collapse_mem (e :: rest) c hc with h1 | h1
      · exact Or.inl h1
      · exact Or.inr (List.mem_cons_of_mem d h1)
    · rw [if_neg h] at hc
      rcases List.mem_cons.mp hc with h1 | h1
      · by_cases hd : pyIsSpace d
        · subst h1
          simp [hd]
        · subst h1
          simp [hd]
      · rcases collapse_mem (e :: rest) c h1 with h2 | h2
        · exact Or.inl h2
        · exact Or.inr (List.mem_cons_of_mem d h2)

theorem trimChars_eq_rdrop (l : List Char) :
    trimChars l = List.rdropWhile pyIsSpace (l.dropWhile pyIsSpace) := rfl

theorem trim_subset {l : List Char} {c : Char} (hc : c ∈ trimChars l) : c ∈ l := by
  rw [trimChars_eq_rdrop, List.rdropWhile] at hc
  rw [List.mem_reverse] at hc
  have h1 := (List.dropWhile_sublist (l := (l.dropWhile pyIsSpace).reverse)
    pyIsSpace).subset hc
  rw [List.mem_reverse] at h1
  exact (List.dropWhile_sublist pyIsSpace).subset h1

theorem trim_spacesCanon {l : List Char} (h : spacesCanon l) :
    spacesCanon (trimChars l) :=
  fun c hc hs => h c (trim_subset hc) hs

theorem noDouble_of_suffix {l t : List Char} (h : noDoubleSpace l)
    (hs : t <:+ l) : noDoubleSpace t :=
  List.Chain'.suffix h hs

theorem noDouble_reverse {l : List Char} (h : noDoubleSpace l) :
    noDoubleSpace l.reverse := by
  rw [noDoubleSpace] at h ⊢
  rw [List.chain'_reverse]
  exact h.imp (fun a b hab => hab.symm)

theorem trim_noDouble {l : List Char} (h : noDoubleSpace l) :
    noDoubleSpace (trimChars l) := by
  have h1 : noDoubleSpace (l.dropWhile pyIsSpace) :=
    noDouble_of_suffix h (List.dropWhile_suffix pyIsSpace)
  have h2 : noDoubleSpace ((l.dropWhile pyIsSpace).reverse.dropWhile pyIsSpace) :=
    noDouble_of_suffix (noDouble_reverse h1) (List.dropWhile_suffix pyIsSpace)
  exact noDouble_reverse h2

theorem dropWhile_head_false {p : Char → Bool} {c : Char} {rest y : List Char}
    (h : y.dropWhile p = y) (hy : y = c :: rest) : p c = false := by
  subst hy
  rw [List.dropWhile_cons] at h
  by_cases hc : p c
  · rw [if_pos hc] at h
    have hle := (List.dropWhile_sublist (l := rest) p).length_le
    rw [h] at hle
    simp at hle
  · simpa using hc

theorem trim_idem (l : List Char) : trimChars (trimChars l) = trimChars l := by
  rw [trimChars_eq_rdrop, trimChars_eq_rdrop]
  have hfix : (l.dropWhile pyIsSpace).dropWhile pyIsSpace = l.dropWhile pyIsSpace :=
    List.dropWhile_idempotent _ _
  cases hz : List.rdropWhile pyIsSpace (l.dropWhile pyIsSpace) with
  | nil => rfl
  | cons c t =>
    obtain ⟨s, hs⟩ := List.rdropWhile_prefix pyIsSpace (l.dropWhile pyIsSpace)
    rw [hz] at hs
    have hy' : List.dropWhile pyIsSpace l = c :: (t ++ s) := by
      rw [← hs]
      rfl
    have hpc : pyIsSpace c = false := dropWhile_head_false hfix hy'
    rw [List.dropWhile_cons, hpc]
    simp only [Bool.false_eq_true, if_false]
    rw [← hz]
    exact List.rdropWhile_idempotent _ _

theorem nfkcChar_idem (c : Char) : nfkcChar (nfkcChar c) = nfkcChar c := by
  by_cases h1 : c = '＜'
  · subst h1
    decide
  by_cases h2 : c = '﹤'
  · subst h2
    decide
  by_cases h3 : c = '＞'
  · subst h3
    decide
  by_cases h4 : c = '﹥'
  · subst h4
    decide
  by_cases h5 : c = '＆'
  · subst h5
    decide
  by_cases h6 : c = '﹠'
  · subst h6
    decide
  by_cases h7 : c = '　'
  · subst h7
    decide
  simp [nfkcChar, h1, h2, h3, h4, h5, h6, h7]

theorem map_fixed_of_all {f : Char → Char} {l : List Char}
    (h : ∀ c ∈ l, f c = c) : l.map f = l := by
  induction l with
  | nil => rfl
  | cons c cs ih =>
    rw [List.map_cons, h c (List.mem_cons_self c cs),
      ih (fun x hx => h x (List.mem_cons_of_mem c hx))]

theorem rough_clean_mem_nfkc_fixed {x : List Char} {c : Char}
    (hc : c ∈ rough_clean x) : nfkcChar c = c := by
  have h1 : c ∈ collapseWS ((strip_html x).map nfkcChar) := trim_subset hc
  rcases collapse_mem _ c h1 with h2 | h2
  · subst h2
    rfl
  · obtain ⟨d, _, hd⟩ := List.mem_map.mp h2
    rw [← hd]
    exact nfkcChar_idem d

theorem stripScan_none_no_lt : ∀ l : List Char, '<' ∉ l → stripScan none l = l
  | [] => fun _ => rfl
  | c :: rest => by
    intro h
    have hc : c ≠ '<' := fun hcc => h (hcc ▸ List.mem_cons_self c rest)
    have hrest : '<' ∉ rest := fun hr => h (List.mem_cons_of_mem c hr)
    rw [stripScan, if_neg hc, stripScan_none_no_lt rest hrest]

theorem decScan_none_no_amp : ∀ l : List Char, '&' ∉ l → decScan none l = l
  | [] => fun _ => rfl
  | c :: rest => by
    intro h
    have hc : c ≠ '&' := fun hcc => h (hcc ▸ List.mem_cons_self c rest)
    have hrest : '&' ∉ rest := fun hr => h (List.mem_cons_of_mem c hr)
    rw [decScan, if_neg hc, decScan_none_no_amp rest hrest]

theorem decodeEntities_no_amp (l : List Char) (h : '&' ∉ l) :
    decodeEntities l = l :=
  decScan_none_no_amp l h

theorem strip_html_fixed (l : List Char) (hlt : '<' ∉ l) (hamp : '&' ∉ l) :
    strip_html l = l := by
  rw [strip_html, stripScan_none_no_lt l hlt, decodeEntities_no_amp l hamp]

/-- The normaliser's output never needs trimming again: this is the
simple-path fidelity fact used for C8 and one leg of idempotence. -/
theorem trim_rough_clean (x : List Char) :
    trimChars (rough_clean x) = rough_clean x :=
  trim_idem _

theorem rough_clean_canon (x : List Char) :
    spacesCanon (rough_clean x) ∧ noDoubleSpace (rough_clean x) :=
  ⟨trim_spacesCanon (collapse_spacesCanon _),
   trim_noDouble (collapse_noDouble _)⟩

/-- Idempotence of `rough_clean` on inputs whose normal form carries
neither `<` (so the second `strip_html` pass finds no tag to remove)
nor `&` (so it decodes no entity). -/
theorem rough_clean_idem_of_no_markup {x : List Char}
    (hlt : '<' ∉ rough_clean x) (hamp : '&' ∉ rough_clean x) :
    rough_clean (rough_clean x) = rough_clean x := by
  have h1 : strip_html (rough_clean x) = rough_clean x :=
    strip_html_fixed _ hlt hamp
  have h2 : (rough_clean x).map nfkcChar = rough_clean x :=
    map_fixed_of_all (fun c hc => rough_clean_mem_nfkc_fixed hc)
  have h3 : collapseWS (rough_clean x) = rough_clean x :=
    collapse_of_canon _ (rough_clean_canon x).1 (rough_clean_canon x).2
  show trimChars (collapseWS ((strip_html (rough_clean x)).map nfkcChar)) =
    rough_clean x
  rw [h1, h2, h3, trim_rough_clean]

/-! ## Scan lemmas for the classifier -/

theorem headMatch_append (kw s : List Char) : headMatch kw (kw ++ s) = true := by
  induction kw with
  | nil => rfl
  | cons k ks ih => simp [headMatch, ih]

theorem hasSub_here (pat s : List Char) : hasSub pat (pat ++ s) = true := by
  cases hps : pat ++ s with
  | nil =>
    have hp : pat = [] := by
      cases pat
      · rfl
      · simp at hps
    subst hp
    rfl
  | cons c r =>
    rw [hasSub, ← hps, headMatch_append]
    simp

theorem hasSub_of_decomp (pat : List Char) :
    ∀ p s : List Char, hasSub pat (p ++ (pat ++ s)) = true := by
  intro p
  induction p with
  | nil =>
    intro s
    exact hasSub_here pat s
  | cons c p' ih =>
    intro s
    rw [List.cons_append, hasSub, ih s]
    simp

/-- The character the scanner remembers after walking over `p`, starting
from `prev`. -/
def lastSeen (prev : Option Char) (p : List Char) : Option Char :=
  p.foldl (fun _ c => some c) prev

theorem affilScan_append : ∀ (p : List Char) (prev : Option Char) (rest : List Char),
    affilScan (lastSeen prev p) rest = true → affilScan prev (p ++ rest) = true
  | [], _, _, h => h
  | c :: p', prev, rest, h => by
    rw [List.cons_append, affilScan]
    have hrec : affilScan (some c) (p' ++ rest) = true :=
      affilScan_append p' (some c) rest h
    rw [hrec]
    simp

theorem affilScan_of_kw {kw : List Char} (hkw : kw ∈ affilKeywords)
    (prev : Option Char) (s : List Char) (hb : boundaryOk prev kw = true)
    (hne : kw ≠ []) : affilScan prev (kw ++ s) = true := by
  cases kw with
  | nil => exact absurd rfl hne
  | cons k ks =>
    rw [List.cons_append, affilScan]
    have hany : affilKeywords.any
        (fun kw => boundaryOk prev kw && headMatch kw (k :: (ks ++ s))) = true := by
      rw [List.any_eq_true]
      refine ⟨k :: ks, hkw, ?_⟩
      rw [hb, Bool.true_and]
      have := headMatch_append (k :: ks) s
      simpa using this
    rw [hany]
    simp

theorem lastSeen_concat (prev : Option Char) (p : List Char) (c : Char) :
    lastSeen prev (p ++ [c]) = some c := by
  rw [lastSeen, List.foldl_append]
  rfl

theorem is_simple_false_of_affil {txt : List Char} (h : affilSearch txt = true) :
    is_simple txt = false := by
  rw [is_simple, if_pos h]

theorem is_simple_false_of_delim {txt : List Char} (h : delimSearch txt = true) :
    is_simple txt = false := by
  rw [is_simple, h]
  split <;> rfl

/-! ## Order preservation of the main loop

`refRun` is the batch-free reference against which the batching loop is
proved equal: every record is resolved immediately and written at its
own index. -/

def refRun (llm : List Char → Option LLMResult) :
    List (List Char) → Nat → List (List Char) × List (Option (List (List Char))) →
      List (List Char) × List (Option (List (List Char)))
  | [], _, st => st
  | raw :: rest, idx, st =>
    refRun llm rest (idx + 1)
      (st.1.set idx (perRecord llm raw).1, st.2.set idx (some (perRecord llm raw).2))

theorem processBatch_cons (llm : List Char → Option LLMResult)
    (p : List Char × Nat) (b : List (List Char × Nat))
    (st : List (List Char) × List (Option (List (List Char)))) :
    processBatch llm (p :: b) st =
      processBatch llm b
        (st.1.set p.2 (llmResolve llm p.1).1,
         st.2.set p.2 (some (llmResolve llm p.1).2)) := rfl

theorem processBatch_append (llm : List Char → Option LLMResult)
    (b1 b2 : List (List Char × Nat))
    (st : List (List Char) × List (Option (List (List Char)))) :
    processBatch llm (b1 ++ b2) st = processBatch llm b2 (processBatch llm b1 st) := by
  unfold processBatch
  exact List.foldl_append _ _ _ _

theorem processBatch_set_comm (llm : List Char → Option LLMResult)
    (b : List (List Char × Nat)) (idx : Nat) (v : List Char)
    (w : Option (List (List Char))) :
    ∀ st : List (List Char) × List (Option (List (List Char))),
      (∀ p ∈ b, p.2 ≠ idx) →
      processBatch llm b (st.1.set idx v, st.2.set idx w) =
        ((processBatch llm b st).1.set idx v, (processBatch llm b st).2.set idx w) := by
  induction b with
  | nil => intro st _; rfl
  | cons p b ih =>
    intro st hne
    rw [processBatch_cons, processBatch_cons]
    have hp : p.2 ≠ idx := hne p (List.mem_cons_self p b)
    simp only
    rw [List.set_comm _ _ _ (Ne.symm hp), List.set_comm _ _ _ (Ne.symm hp)]
    exact ih
      (st.1.set p.2 (llmResolve llm p.1).1, st.2.set p.2 (some (llmResolve llm p.1).2))
      (fun q hq => hne q (List.mem_cons_of_mem p hq))

theorem runLoop_eq_refRun (llm : List Char → Option LLMResult) (B : Nat) :
    ∀ (rest : List (List Char)) (idx : Nat)
      (st : List (List Char) × List (Option (List (List Char))))
      (batch : List (List Char × Nat)),
      (∀ p ∈ batch, p.2 < idx) →
      runLoop llm B rest idx st batch = refRun llm rest idx (processBatch llm batch st)
  | [], idx, st, batch, _ => rfl
  | raw :: rest, idx, st, batch, hb => by
    have hlt : ∀ p ∈ batch, p.2 ≠ idx := fun p hp => Nat.ne_of_lt (hb p hp)
    have hsucc : ∀ p ∈ batch, p.2 < idx + 1 :=
      fun p hp => Nat.lt_succ_of_lt (hb p hp)
    rw [runLoop, refRun]
    by_cases hc : rough_clean raw = []
    · rw [if_pos hc]
      rw [runLoop_eq_refRun llm B rest (idx + 1) _ batch hsucc]
      rw [processBatch_set_comm llm batch idx _ _ st hlt]
      have hper : perRecord llm raw = ([], []) := by
        rw [perRecord]
        simp [hc]
      rw [hper]
    · rw [if_neg hc]
      by_cases hsi : is_simple (rough_clean raw) = true
      · rw [if_pos hsi]
        rw [runLoop_eq_refRun llm B rest (idx + 1) _ batch hsucc]
        rw [processBatch_set_comm llm batch idx _ _ st hlt]
        have hper : perRecord llm raw = (trimChars (rough_clean raw), []) := by
          rw [perRecord]
          simp [hc, hsi]
        rw [hper]
      · rw [if_neg hsi]
        have hper : perRecord llm raw = llmResolve llm (rough_clean raw) := by
          rw [perRecord]
          simp [hc, hsi]
        have hbatch' : ∀ p ∈ batch ++ [(rough_clean raw, idx)], p.2 < idx + 1 := by
          intro p hp
          rcases List.mem_append.mp hp with h1 | h1
          · exact Nat.lt_succ_of_lt (hb p h1)
          · rcases List.mem_singleton.mp h1 with rfl
            exact Nat.lt_succ_self idx
        by_cases hfl : B ≤ (batch ++ [(rough_clean raw, idx)]).length
        · rw [if_pos hfl]
          rw [runLoop_eq_refRun llm B rest (idx + 1) _ [] (by simp)]
          rw [processBatch_append]
          rw [processBatch_cons]
          rw [hper]
          rfl
        · rw [if_neg hfl]
          rw [runLoop_eq_refRun llm B rest (idx + 1) st _ hbatch']
          rw [processBatch_append]
          rw [processBatch_cons]
          rw [hper]
          rfl

theorem refRun_spec (llm : List Char → Option LLMResult) :
    ∀ (rest : List (List Char)) (idx : Nat)
      (st : List (List Char) × List (Option (List (List Char)))),
      idx + rest.length ≤ st.1.length → st.2.length = st.1.length →
      (refRun llm rest idx st).1.length = st.1.length ∧
      (refRun llm rest idx st).2.length = st.2.length ∧
      (∀ j, j < idx →
        (refRun llm rest idx st).1[j]? = st.1[j]? ∧
        (refRun llm rest idx st).2[j]? = st.2[j]?) ∧
      (∀ k, k < rest.length →
        (refRun llm rest idx st).1[idx + k]? =
          (rest[k]?).map (fun raw => (perRecord llm raw).1) ∧
        (refRun llm rest idx st).2[idx + k]? =
          (rest[k]?).map (fun raw => some (perRecord llm raw).2))
  | [], idx, st, _, _ => by
    refine ⟨rfl, rfl, fun j _ => ⟨rfl, rfl⟩, fun k hk => absurd hk (by simp)⟩
  | raw :: rest, idx, st, hlen, heq => by
    have hidx : idx < st.1.length := by
      simp only [List.length_cons] at hlen
      omega
    have hidx2 : idx < st.2.length := by
      rw [heq]
      exact hidx
    have hlen' : (idx + 1) + rest.length ≤ (st.1.set idx (perRecord llm raw).1).length := by
      rw [List.length_set]
      simp only [List.length_cons] at hlen
      omega
    have heq' : (st.2.set idx (some (perRecord llm raw).2)).length =
        (st.1.set idx (perRecord llm raw).1).length := by
      rw [List.length_set, List.length_set]
      exact heq
    obtain ⟨ih1, ih2, ihu, ihc⟩ := refRun_spec llm rest (idx + 1)
      (st.1.set idx (perRecord llm raw).1, st.2.set idx (some (perRecord llm raw).2))
      hlen' heq'
    rw [refRun]
    refine ⟨?_, ?_, ?_, ?_⟩
    · rw [ih1, List.length_set]
    · rw [ih2, List.length_set]
    · intro j hj
      have hne : idx ≠ j := fun hcc => absurd (hcc ▸ hj) (Nat.lt_irrefl idx)
      obtain ⟨hu1, hu2⟩ := ihu j (Nat.lt_succ_of_lt hj)
      rw [hu1, hu2, List.getElem?_set_ne hne, List.getElem?_set_ne hne]
      exact ⟨rfl, rfl⟩
    · intro k hk
      cases k with
      | zero =>
        obtain ⟨hu1, hu2⟩ := ihu idx (Nat.lt_succ_self idx)
        have h0 : idx + 0 = idx := rfl
        rw [h0, hu1, hu2]
        constructor
        · rw [List.getElem?_set_self hidx]
          simp
        · rw [List.getElem?_set_self hidx2]
          simp
      | succ k' =>
        have hk' : k' < rest.length := by
          simp only [List.length_cons] at hk
          omega
        obtain ⟨hc1, hc2⟩ := ihc k' hk'
        have harith : idx + (k' + 1) = (idx + 1) + k' := by omega
        rw [harith, hc1, hc2]
        constructor
        · simp
        · simp

/-- Write-backs at pairwise distinct indices commute: processing a batch
in any completion order yields the same arrays. -/
theorem processBatch_perm (llm : List Char → Option LLMResult)
    {b1 b2 : List (List Char × Nat)} (hperm : b1.Perm b2) :
    ∀ st : List (List Char) × List (Option (List (List Char))),
      b1.Pairwise (fun p q => p.2 ≠ q.2) →
      processBatch llm b1 st = processBatch llm b2 st := by
  induction hperm with
  | nil => intro st _; rfl
  | cons x h ih =>
    intro st hp
    rw [processBatch_cons, processBatch_cons]
    exact ih _ (List.Pairwise.of_cons hp)
  | swap x y t =>
    intro st hp
    rw [processBatch_cons, processBatch_cons, processBatch_cons, processBatch_cons]
    have hxy : y.2 ≠ x.2 := (List.pairwise_cons.mp hp).1 x (List.mem_cons_self x t)
    simp only
    rw [List.set_comm _ _ _ hxy, List.set_comm _ _ _ hxy]
  | trans h1 h2 ih1 ih2 =>
    intro st hp
    rw [ih1 st hp]
    refine ih2 st ?_
    exact hp.perm h1 (fun hab => Ne.symm hab)

/-! ## Backup rotation lemmas -/

instance : IsTotal (Nat × PyVal) mtimeGE :=
  ⟨fun a b => (le_total b.1 a.1).imp id id⟩

instance : IsTrans (Nat × PyVal) mtimeGE :=
  ⟨fun _ _ _ h1 h2 => le_trans h2 h1⟩

theorem cleanup_length_le (N : Nat) (bs : List (Nat × PyVal)) :
    (cleanup_old_backups N bs).length ≤ N := by
  rw [cleanup_old_backups]
  exact List.length_take_le N _

/-- After pruning, what remains is a sub-permutation of the input whose
every element's mtime dominates every removed element's mtime. -/
theorem cleanup_keeps_newest (N : Nat) (bs : List (Nat × PyVal)) :
    ∃ dropped, bs.Perm (cleanup_old_backups N bs ++ dropped) ∧
      ∀ x ∈ cleanup_old_backups N bs, ∀ y ∈ dropped, y.1 ≤ x.1 := by
  refine ⟨(bs.insertionSort mtimeGE).drop N, ?_, ?_⟩
  · have hperm := List.perm_insertionSort mtimeGE bs
    rw [cleanup_old_backups, List.take_append_drop]
    exact hperm.symm
  · intro x hx y hy
    have hsorted : List.Sorted mtimeGE (bs.insertionSort mtimeGE) :=
      List.sorted_insertionSort mtimeGE bs
    rw [List.Sorted, ← List.take_append_drop N (bs.insertionSort mtimeGE)] at hsorted
    rw [cleanup_old_backups] at hx
    exact (List.pairwise_append.mp hsorted).2.2 x hx y hy

/-- The backup list produced by stamping times `0, …, t-1` and keeping
the newest `N`: times `t-1, t-2, …` down to at most `N` of them, each
paired with the live content. -/
def mseq (t N : Nat) (v : PyVal) : List (Nat × PyVal) :=
  (((List.range t).reverse).take N).map (fun m => (m, v))

theorem mseq_sorted (t N : Nat) (v : PyVal) : List.Sorted mtimeGE (mseq t N v) := by
  rw [mseq]
  refine List.Pairwise.map _ (fun a b hab => hab) ?_
  have hrev : List.Pairwise (fun a b : Nat => b ≤ a) (List.range t).reverse := by
    rw [List.pairwise_reverse]
    exact (List.pairwise_lt_range t).imp le_of_lt
  exact hrev.take

theorem mseq_lt (t N : Nat) (v : PyVal) : ∀ p ∈ mseq t N v, p.1 < t := by
  intro p hp
  rw [mseq] at hp
  obtain ⟨m, hm, hmp⟩ := List.mem_map.mp hp
  have hmem : m ∈ (List.range t).reverse := List.mem_of_mem_take hm
  rw [List.mem_reverse, List.mem_range] at hmem
  rw [← hmp]
  exact hmem

theorem mseq_filter_ne (t N : Nat) (v : PyVal) :
    (mseq t N v).filter (fun p => p.1 ≠ t) = mseq t N v := by
  apply List.filter_eq_self.mpr
  intro p hp
  simp only [decide_eq_true_eq]
  exact Nat.ne_of_lt (mseq_lt t N v p hp)

theorem mseq_step (t N : Nat) (v : PyVal) :
    cleanup_old_backups N ((t, v) :: mseq t N v) = mseq (t + 1) N v := by
  have hsorted : List.Sorted mtimeGE ((t, v) :: mseq t N v) := by
    rw [List.sorted_cons]
    exact ⟨fun p hp => le_of_lt (mseq_lt t N v p hp), mseq_sorted t N v⟩
  rw [cleanup_old_backups, hsorted.insertionSort_eq]
  rw [mseq, mseq, List.range_succ, List.reverse_append]
  simp only [List.reverse_singleton, List.singleton_append]
  cases N with
  | zero => simp
  | succ n =>
    rw [List.take_succ_cons, List.take_succ_cons, List.map_cons]
    rw [← List.map_take, List.take_take]
    have hmin : min n (n + 1) = n := by omega
    rw [hmin]

theorem iterBackups_spec (N : Nat) (v : PyVal) (temp0 : Option PyVal) :
    ∀ k : Nat,
      iterBackups N k ⟨some v, temp0, []⟩ =
        ⟨some v, temp0, mseq k N v⟩ := by
  intro k
  induction k with
  | zero => simp [iterBackups, mseq]
  | succ k ih =>
    rw [iterBackups, List.range_succ, List.foldl_append]
    rw [iterBackups] at ih
    rw [ih]
    simp only [List.foldl_cons, List.foldl_nil]
    rw [create_backup]
    simp only
    rw [mseq_filter_ne, mseq_step]

/-! ## Separation scorer: claim-side formulation -/

/-- The author-separation rule exactly as the claim words it: a base
score from the absolute count deviation (exact, off-by-one, off-by-two,
larger), then a −1 duplicate penalty and a −1 average-length penalty,
each floored at 1, with the average name length taken as a rational
number.  To be compared with the source translation
`analyze_author_separation`. -/
def separationScoreClaim (record : ValidationRecord) : Nat :=
  if record.author_count ≤ 1 then
    if record.processed_authors.contains ';' then 2 else 5
  else
    let names := splitAuthors record.processed_authors
    let dev := ((names.length : Int) - record.author_count).natAbs
    let base : Nat :=
      if dev = 0 then 5 else if dev = 1 then 4 else if dev = 2 then 3 else 2
    let afterDup : Nat := if names.Nodup then base else max 1 (base - 1)
    let lens := names.map List.length
    let avg : ℚ := if lens.length = 0 then 0 else (lens.sum : ℚ) / (lens.length : ℚ)
    if avg < 5 ∨ 50 < avg then max 1 (afterDup - 1) else afterDup

theorem count_instance_eq (a : List Char) (l : List (List Char)) :
    l.count a = @List.count (List Char) instBEqOfDecidableEq a l := by
  show l.countP (fun x => x == a) = l.countP (fun x => decide (x = a))
  apply List.countP_congr
  intro x _
  have hx : (x == a) = decide (x = a) := by
    by_cases h : x = a
    · subst h
      simp
    · simp [h]
  rw [hx]

theorem hasDuplicate_iff (l : List (List Char)) : hasDuplicate l = true ↔ ¬ l.Nodup := by
  rw [hasDuplicate, List.any_eq_true]
  constructor
  · rintro ⟨n, _, hcount⟩ hnodup
    have hle := List.nodup_iff_count_le_one.mp hnodup n
    simp only [decide_eq_true_eq] at hcount
    rw [count_instance_eq] at hcount
    omega
  · intro hnd
    by_contra hno
    push_neg at hno
    apply hnd
    rw [List.nodup_iff_count_le_one]
    intro a
    by_cases ha : a ∈ l
    · have h2 := hno a ha
      simp at h2
      rw [← count_instance_eq]
      omega
    · rw [← count_instance_eq, List.count_eq_zero.mpr ha]
      omega

theorem avg_lt_iff (s n b : Nat) (hn : 0 < n) :
    ((s : ℚ) / (n : ℚ) < (b : ℚ)) ↔ s < b * n := by
  rw [div_lt_iff₀ (by exact_mod_cast hn)]
  exact_mod_cast Iff.rfl

theorem lt_avg_iff (s n b : Nat) (hn : 0 < n) :
    ((b : ℚ) < (s : ℚ) / (n : ℚ)) ↔ b * n < s := by
  rw [lt_div_iff₀ (by exact_mod_cast hn)]
  exact_mod_cast Iff.rfl

theorem sep_branch_eq (names : List (List Char)) (expected : Int) :
    (if (names.length : Int) = expected then (5 : Nat)
      else if ((names.length : Int) - expected).natAbs = 1 then 4
      else if ((names.length : Int) - expected).natAbs ≤ 2 then 3 else 2)
    = (if ((names.length : Int) - expected).natAbs = 0 then (5 : Nat)
      else if ((names.length : Int) - expected).natAbs = 1 then 4
      else if ((names.length : Int) - expected).natAbs = 2 then 3 else 2) := by
  have heq0 : ((names.length : Int) = expected)
      ↔ (((names.length : Int) - expected).natAbs = 0) := by
    rw [Int.natAbs_eq_zero, sub_eq_zero]
  by_cases h0 : (names.length : Int) = expected
  · rw [if_pos h0, if_pos (heq0.mp h0)]
  · rw [if_neg h0, if_neg (fun hc => h0 (heq0.mpr hc))]
    by_cases h1 : ((names.length : Int) - expected).natAbs = 1
    · rw [if_pos h1, if_pos h1]
    · rw [if_neg h1, if_neg h1]
      have hne0 : ((names.length : Int) - expected).natAbs ≠ 0 :=
        fun hc => h0 (heq0.mpr hc)
      by_cases h2 : ((names.length : Int) - expected).natAbs = 2
      · rw [if_pos (by omega), if_pos h2]
      · rw [if_neg (by omega), if_neg h2]

theorem dup_branch_eq (names : List (List Char)) (b : Nat) :
    (if hasDuplicate names then max 1 (b - 1) else b)
    = (if names.Nodup then b else max 1 (b - 1)) := by
  by_cases hnd : names.Nodup
  · rw [if_neg ?hfalse, if_pos hnd]
    case hfalse =>
      rw [hasDuplicate_iff]
      exact not_not_intro hnd
  · rw [if_pos ((hasDuplicate_iff names).mpr hnd), if_neg hnd]

theorem avg_branch_eq (lens : List Nat) (pen keep : Nat) :
    (if lens.length = 0 ∨ lens.sum < 5 * lens.length then pen
      else if 50 * lens.length < lens.sum then pen else keep)
    = (if (if lens.length = 0 then (0 : ℚ)
            else (lens.sum : ℚ) / (lens.length : ℚ)) < 5
          ∨ 50 < (if lens.length = 0 then (0 : ℚ)
            else (lens.sum : ℚ) / (lens.length : ℚ))
        then pen else keep) := by
  by_cases hn : lens.length = 0
  · rw [if_pos (Or.inl hn), if_pos (Or.inl (by rw [if_pos hn]; norm_num))]
  · have hpos : 0 < lens.length := Nat.pos_of_ne_zero hn
    rw [if_neg hn]
    by_cases hlow : lens.sum < 5 * lens.length
    · rw [if_pos (Or.inr hlow)]
      rw [if_pos (Or.inl (by
        have h5 : ((5 : Nat) : ℚ) = (5 : ℚ) := by norm_num
        rw [← h5, avg_lt_iff _ _ 5 hpos]
        exact hlow))]
    · rw [if_neg (by
        rintro (hc | hc)
        · exact hn hc
        · exact hlow hc)]
      have hnotlow : ¬ ((lens.sum : ℚ) / (lens.length : ℚ) < 5) := by
        have h5 : ((5 : Nat) : ℚ) = (5 : ℚ) := by norm_num
        rw [← h5, avg_lt_iff _ _ 5 hpos]
        exact hlow
      by_cases hhigh : 50 * lens.length < lens.sum
      · rw [if_pos hhigh]
        rw [if_pos (Or.inr (by
          have h50 : ((50 : Nat) : ℚ) = (50 : ℚ) := by norm_num
          rw [← h50, lt_avg_iff _ _ 50 hpos]
          exact hhigh))]
      · rw [if_neg hhigh]
        rw [if_neg (by
          rintro (hc | hc)
          · exact hnotlow hc
          · refine hhigh ?_
            have h50 : ((50 : Nat) : ℚ) = (50 : ℚ) := by norm_num
            rw [← h50, lt_avg_iff _ _ 50 hpos] at hc
            exact hc)]

theorem analyze_author_separation_eq_claim (record : ValidationRecord) :
    analyze_author_separation record = separationScoreClaim record := by
  rw [analyze_author_separation, separationScoreClaim]
  by_cases hexp : record.author_count ≤ 1
  · rw [if_pos hexp, if_pos hexp]
  · rw [if_neg hexp, if_neg hexp]
    simp only
    rw [sep_branch_eq (splitAuthors record.processed_authors) record.author_count]
    rw [dup_branch_eq]
    rw [avg_branch_eq]

theorem create_backup_live (maxB t : Nat) (st : StoreState) :
    ((create_backup maxB t st).2).live = st.live := by
  obtain ⟨live, temp, backups⟩ := st
  cases live <;> rfl

/-! ## Claim theorems -/

/-- C1: for every input sequence of N records, the pipeline's output has
exactly N entries in both columns, the entry at index i is the per-record
result of the input record at index i, and processing a batch in any
completion order (any permutation of a batch with distinct write-back
indices) produces the same arrays. -/
theorem pipeline_order_preserved (llm : List Char → Option LLMResult) (B : Nat)
    (records : List (List Char)) :
    (mainPipeline llm B records).1.length = records.length ∧
    (mainPipeline llm B records).2.length = records.length ∧
    (∀ i, i < records.length →
      (mainPipeline llm B records).1[i]? =
        (records[i]?).map (fun raw => (perRecord llm raw).1) ∧
      (mainPipeline llm B records).2[i]? =
        (records[i]?).map (fun raw => (perRecord llm raw).2)) ∧
    (∀ (b1 b2 : List (List Char × Nat))
        (st : List (List Char) × List (Option (List (List Char)))),
      b1.Perm b2 → b1.Pairwise (fun p q => p.2 ≠ q.2) →
      processBatch llm b1 st = processBatch llm b2 st) := by
  have hrun := runLoop_eq_refRun llm B records 0
    (List.replicate records.length [], List.replicate records.length none) []
    (by intro p hp; simp at hp)
  have hpb : processBatch llm []
      ((List.replicate records.length [] : List (List Char)),
        (List.replicate records.length none : List (Option (List (List Char)))))
      = (List.replicate records.length [], List.replicate records.length none) := rfl
  rw [hpb] at hrun
  obtain ⟨hl1, hl2, _, hcov⟩ := refRun_spec llm records 0
    (List.replicate records.length [], List.replicate records.length none)
    (by simp) (by simp)
  refine ⟨?_, ?_, ?_, ?_⟩
  · show (runLoop llm B records 0
      (List.replicate records.length [], List.replicate records.length none) []).1.length
      = records.length
    rw [hrun, hl1]
    simp
  · show ((runLoop llm B records 0
      (List.replicate records.length [], List.replicate records.length none) []).2.map
        (fun o => o.getD [])).length = records.length
    rw [List.length_map, hrun, hl2]
    simp
  · intro i hi
    obtain ⟨hc1, hc2⟩ := hcov i hi
    have hz : (0 : Nat) + i = i := by omega
    rw [hz] at hc1 hc2
    constructor
    · show (runLoop llm B records 0
        (List.replicate records.length [], List.replicate records.length none) []).1[i]?
        = (records[i]?).map (fun raw => (perRecord llm raw).1)
      rw [hrun, hc1]
    · show ((runLoop llm B records 0
        (List.replicate records.length [], List.replicate records.length none) []).2.map
          (fun o => o.getD []))[i]? = (records[i]?).map (fun raw => (perRecord llm raw).2)
      rw [List.getElem?_map, hrun, hc2]
      cases hrec : records[i]? <;> rfl
  · intro b1 b2 st hperm hp
    exact processBatch_perm llm hperm st hp

def llmW : List Char → Option LLMResult := fun t =>
  if t = "A; B".toList then
    some ⟨["A".toList, "B".toList], ["Uni X".toList]⟩
  else none

def stW : List (List Char) × List (Option (List (List Char))) :=
  ([[], []], [none, none])

theorem pipeline_order_preserved_witness :
    (mainPipeline llmW 1 ["Jane Smith".toList, "A; B".toList]).1.length = 2 ∧
    (mainPipeline llmW 1 ["Jane Smith".toList, "A; B".toList]).1[1]? =
      some (perRecord llmW ("A; B".toList)).1 ∧
    processBatch llmW [("x".toList, 0), ("y".toList, 1)] stW =
      processBatch llmW [("y".toList, 1), ("x".toList, 0)] stW := by
  have h := pipeline_order_preserved llmW 1 ["Jane Smith".toList, "A; B".toList]
  refine ⟨h.1, ?_, ?_⟩
  · have h2 := (h.2.2.1 1 (by decide)).1
    rw [h2]
    rfl
  · exact h.2.2.2 [("x".toList, 0), ("y".toList, 1)] [("y".toList, 1), ("x".toList, 0)]
      stW (List.Perm.swap ("y".toList, 1) ("x".toList, 0) []) (by decide)

/-- C2: whenever the integrity verification of the temporary file fails,
or an exception interrupts `safe_save` before the atomic rename, the call
returns `False`, the temporary file is removed, and the live progress
file is unchanged. -/
theorem safe_save_failure_preserves_state (maxB t : Nat) (st : StoreState)
    (data : PyVal) (fault : SaveFault)
    (h : fault = SaveFault.writeRaises ∨ verify_file_integrity data = false) :
    (safe_save maxB t st data fault).1 = false ∧
    (safe_save maxB t st data fault).2.temp = none ∧
    (safe_save maxB t st data fault).2.live = st.live := by
  cases fault with
  | writeRaises =>
    exact ⟨rfl, rfl, create_backup_live maxB t st⟩
  | ok =>
    have hv : verify_file_integrity data = false := by
      rcases h with h | h
      · exact absurd h (by simp)
      · exact h
    rw [safe_save]
    simp only []
    rw [if_neg ?hneg]
    case hneg =>
      rw [hv]
      simp
    exact ⟨rfl, rfl, create_backup_live maxB t st⟩

theorem safe_save_failure_witness :
    (safe_save 10 0 ⟨some (PyVal.dict []), none, []⟩ (PyVal.str "x") SaveFault.ok).1
      = false ∧
    (safe_save 10 0 ⟨some (PyVal.dict []), none, []⟩ (PyVal.str "x") SaveFault.ok).2.temp
      = none ∧
    (safe_save 10 0 ⟨some (PyVal.dict []), none, []⟩ (PyVal.str "x") SaveFault.ok).2.live
      = some (PyVal.dict []) := by
  have h := safe_save_failure_preserves_state 10 0 ⟨some (PyVal.dict []), none, []⟩
    (PyVal.str "x") SaveFault.ok (Or.inr rfl)
  exact ⟨h.1, h.2.1, h.2.2⟩

/-- C3: the author-separation sub-score follows the claimed rule exactly:
for expected count ≤ 1 it is 5 without a semicolon and 2 otherwise; for
expected count > 1 the base is 5/4/3/2 by count deviation, a duplicate
name subtracts 1 (floored at 1), and an average name length below 5 or
above 50 subtracts another 1 (floored at 1). -/
theorem separation_score_matches_claim (record : ValidationRecord) :
    analyze_author_separation record = separationScoreClaim record :=
  analyze_author_separation_eq_claim record

/-- C4 counterexample: the claim says every string containing
`"Dept. of Biology"` classifies complex, but no `AFFIL_PAT` keyword
matches the abbreviation `"Dept."`, no delimiter occurs and there is no
comma group, so the classifier returns simple on that very string. -/
theorem dept_of_biology_classified_simple :
    is_simple ("Dept. of Biology".toList) = true := by decide

/-- C4 (amended): a string in which `"Department of Biology"` appears at
the start or right after a space (so that the `\b` boundary of
`AFFIL_PAT` is satisfied) always classifies complex, and the single
ASCII two-token name `"Jane Smith"` classifies simple. -/
theorem classifier_keyword_monotone :
    (∀ pre suf : List Char, (pre = [] ∨ ∃ p, pre = p ++ [' ']) →
      is_simple (pre ++ ("Department of Biology".toList ++ suf)) = false) ∧
    is_simple ("Jane Smith".toList) = true := by
  constructor
  · intro pre suf hpre
    apply is_simple_false_of_affil
    rw [affilSearch, List.map_append]
    apply affilScan_append
    have hmap : ("Department of Biology".toList ++ suf).map Char.toLower
        = "department".toList ++ (" of biology".toList ++ suf.map Char.toLower) := by
      rw [List.map_append]
      have hconss : ("Department of Biology".toList).map Char.toLower
          = "department".toList ++ " of biology".toList := by decide
      rw [hconss, List.append_assoc]
    rw [hmap]
    apply affilScan_of_kw
    · decide
    · rcases hpre with h | ⟨p, hp⟩
      · subst h
        rfl
      · subst hp
        rw [List.map_append]
        have hsp : ([' '] : List Char).map Char.toLower = [' '] := by decide
        rw [hsp, lastSeen_concat]
        decide
    · decide
  · decide

theorem classifier_keyword_monotone_witness :
    is_simple ("The ".toList ++ ("Department of Biology".toList ++ [])) = false :=
  classifier_keyword_monotone.1 "The ".toList []
    (Or.inr ⟨"The".toList, by decide⟩)

/-- C5 counterexample: the claim lists the plus sign among the
delimiters that force a complex classification, but the routing regex
`[;&/\\]| and ` contains no plus sign: `"Alice + Bob"` contains `'+'`
yet classifies simple. -/
theorem plus_sign_not_a_delimiter :
    ('+' ∈ "Alice + Bob".toList) ∧ is_simple ("Alice + Bob".toList) = true := by
  decide

/-- C5 (amended): any text containing a semicolon, ampersand, slash or
backslash anywhere, or the word `"and"` surrounded by spaces
(case-insensitively), is classified complex; the plus sign is not part
of the routing delimiter set. -/
theorem delimiter_forces_complex (txt : List Char)
    (h : (∃ c ∈ txt, c = ';' ∨ c = '&' ∨ c = '/' ∨ c = '\\') ∨
      ∃ p s, txt.map Char.toLower = p ++ (" and ".toList ++ s)) :
    is_simple txt = false := by
  apply is_simple_false_of_delim
  rw [delimSearch, Bool.or_eq_true]
  rcases h with ⟨c, hc, hor⟩ | ⟨p, s, hps⟩
  · left
    rw [List.any_eq_true]
    refine ⟨c, hc, ?_⟩
    rcases hor with h | h | h | h <;> simp [h]
  · right
    rw [hps]
    exact hasSub_of_decomp _ p s

theorem delimiter_forces_complex_witness :
    is_simple ("A; B".toList) = false :=
  delimiter_forces_complex ("A; B".toList)
    (Or.inl ⟨';', by decide, Or.inl rfl⟩)

/-- C6: the claim says all four sub-analyses return without raising for
well-formed string fields, degrading to the lowest score on empty input.
The code violates this: a processed-authors string such as `";"` is
non-blank (so the lowest-score guard does not fire) but splits to zero
non-empty names, and `analyze_name_formatting` then divides by zero —
modelled as `none` — while the genuinely empty string does degrade
to score 1. -/
theorem name_formatting_division_by_zero :
    analyze_name_formatting
      ⟨"r1".toList, "Smith, J.; Doe, A.".toList, ";".toList, [], 2⟩ = none ∧
    analyze_name_formatting
      ⟨"r1".toList, "Smith, J.; Doe, A.".toList, "".toList, [], 2⟩ = some 1 := by
  constructor
  · rfl
  · rfl

/-- Runs `k` backup-triggering `safe_save` calls whose backups all fall
in the same timestamp second `t`, so every backup lands on the same
filename and overwrites the previous one. -/
def iterSameStampSaves (maxBackups t k : Nat) (data : PyVal) (st : StoreState) :
    StoreState :=
  (List.range k).foldl (fun s _ => (safe_save maxBackups t s data SaveFault.ok).2) st

def validSnapshot : PyVal :=
  PyVal.dict [("r1", PyVal.dict [("record_id", PyVal.str "r1")])]

/-- C7 counterexample: the claim promises that N+5 backup-triggering
saves with retention limit N always leave exactly N backup files.  But
the backup filename embeds a second-resolution timestamp, so saves
within the same second overwrite one another: with N = 2, seven
backup-triggering saves in one second leave a single backup file, not
two. -/
theorem same_second_backups_collapse :
    (iterSameStampSaves 2 0 7 validSnapshot ⟨some validSnapshot, none, []⟩).backups.length
        = 1 ∧
    ¬ (iterSameStampSaves 2 0 7 validSnapshot
        ⟨some validSnapshot, none, []⟩).backups.length = 2 := by
  constructor
  · rfl
  · decide

/-- C7 (amended): after every backup creation at most N backup entries
remain and every removed entry's timestamp is no newer than any kept
entry's; and after N+5 backup-triggering saves at pairwise distinct
timestamp seconds, starting from an empty backups directory, exactly N
backups remain and their timestamps are the N most recent.  (Saves that
share a second collide on the backup filename and overwrite in place,
so fewer files can remain — see the counterexample.) -/
theorem backup_retention (N : Nat) :
    (∀ (t : Nat) (st : StoreState) (v : PyVal), st.live = some v →
      ((create_backup N t st).2).backups.length ≤ N ∧
      ∃ dropped, ((t, v) :: st.backups.filter (fun p => p.1 ≠ t)).Perm
          (((create_backup N t st).2).backups ++ dropped) ∧
        ∀ x ∈ ((create_backup N t st).2).backups, ∀ y ∈ dropped, y.1 ≤ x.1) ∧
    (∀ v : PyVal,
      (iterBackups N (N + 5) ⟨some v, none, []⟩).backups.length = N ∧
      (iterBackups N (N + 5) ⟨some v, none, []⟩).backups.map Prod.fst
        = ((List.range (N + 5)).reverse).take N) := by
  constructor
  · intro t st v hlive
    have hb : ((create_backup N t st).2).backups
        = cleanup_old_backups N ((t, v) :: st.backups.filter (fun p => p.1 ≠ t)) := by
      rw [create_backup, hlive]
    rw [hb]
    exact ⟨cleanup_length_le N _, cleanup_keeps_newest N _⟩
  · intro v
    rw [iterBackups_spec N v none (N + 5)]
    constructor
    · rw [mseq, List.length_map, List.length_take, List.length_reverse,
        List.length_range]
      omega
    · rw [mseq, List.map_map]
      have hid : (Prod.fst ∘ fun m => ((m, v) : Nat × PyVal)) = id := rfl
      rw [hid, List.map_id]

theorem backup_retention_witness :
    (iterBackups 10 (10 + 5) ⟨some PyVal.null, none, []⟩).backups.length = 10 ∧
    (iterBackups 10 (10 + 5) ⟨some PyVal.null, none, []⟩).backups.map Prod.fst
      = ((List.range (10 + 5)).reverse).take 10 ∧
    ((create_backup 10 0 ⟨some PyVal.null, none, []⟩).2).backups.length ≤ 10 := by
  have h := backup_retention 10
  have h2 := h.2 PyVal.null
  have h1 := (h.1 0 ⟨some PyVal.null, none, []⟩ PyVal.null rfl).1
  exact ⟨h2.1, h2.2, h1⟩

/-- C8: a record whose normalised creator text is non-empty and
classified simple is resolved locally: the authors value is exactly the
(already trimmed) normalised input and the affiliations list is empty,
for every extraction oracle. -/
theorem simple_path_fidelity (llm : List Char → Option LLMResult)
    (raw : List Char) (hne : rough_clean raw ≠ [])
    (hsi : is_simple (rough_clean raw) = true) :
    perRecord llm raw = (rough_clean raw, []) ∧
    trimChars (rough_clean raw) = rough_clean raw := by
  constructor
  · rw [perRecord]
    rw [if_neg hne, if_pos hsi, trim_rough_clean]
  · exact trim_rough_clean raw

theorem simple_path_fidelity_witness :
    perRecord (fun _ => none) ("Jane Smith".toList)
      = (rough_clean ("Jane Smith".toList), []) :=
  (simple_path_fidelity (fun _ => none) ("Jane Smith".toList)
    (by decide) (by decide)).1

/-- C9 counterexample: normalisation is not idempotent on all inputs,
in two independent ways.  NFKC maps the fullwidth brackets of
`"a＜b＞c"` to ASCII `<`/`>`, so the first pass outputs `"a<b>c"` and
the second strips `<b>` as a markup tag, yielding `"a c"`.  And entity
decoding reapplies: `"a &amp;amp; b"` first normalises to
`"a &amp; b"`, which a second pass decodes again to `"a & b"`. -/
theorem rough_clean_not_idempotent :
    rough_clean (rough_clean ("a＜b＞c".toList)) ≠ rough_clean ("a＜b＞c".toList) ∧
    rough_clean (rough_clean ("a &amp;amp; b".toList))
      ≠ rough_clean ("a &amp;amp; b".toList) := by
  constructor
  · decide
  · decide

/-- C9 (amended): normalisation is idempotent on every input whose
normal form contains neither a `<` nor an `&` character — the second
pass then strips no markup and decodes no entity, NFKC is already
applied, and whitespace is already canonical. -/
theorem rough_clean_idem_no_markup (x : List Char)
    (hlt : '<' ∉ rough_clean x) (hamp : '&' ∉ rough_clean x) :
    rough_clean (rough_clean x) = rough_clean x :=
  rough_clean_idem_of_no_markup hlt hamp

theorem rough_clean_idem_no_markup_witness :
    rough_clean (rough_clean ("John  Smith".toList))
      = rough_clean ("John  Smith".toList) :=
  rough_clean_idem_no_markup ("John  Smith".toList) (by decide) (by decide)

/-- C10: a row whose creator text normalises to the empty string is
resolved immediately with empty authors and affiliations, independently
of the extraction oracle (nothing is dispatched) and before the
simple/complex classification is consulted. -/
theorem empty_creator_resolved_immediately (llm : List Char → Option LLMResult)
    (raw : List Char) (h : rough_clean raw = []) :
    perRecord llm raw = ([], []) := by
  rw [perRecord]
  rw [if_pos h]

theorem empty_creator_resolved_immediately_witness :
    perRecord (fun _ => none) ("  ".toList) = ([], []) :=
  empty_creator_resolved_immediately (fun _ => none) ("  ".toList) (by decide)

end InvisibleResearch
